import Mathlib

/-!
Verification of the Tic-Tac-Toe game engine, learning agent and training
driver (`Tic_Tac_Toe.py`).

The embedding is shallow and executable:
- the board is the source's list of 9 characters, a cell being one of
  the space character (empty), the character X or the character O;
- a game session (`Game`) carries the board, `current_player`, `winner`
  and `game_over`, as the Python class does;
- the agent's `defaultdict` tables are association lists paired with the
  Python `defaultdict` access discipline: reading an absent key appends
  the default entry (as `d[k]` does on a `defaultdict`), writing updates
  the entry in place or appends it;
- floating-point values are embedded as rationals (the program only ever
  stores 0, 1/2, 1 and incremental means of those, all exact);
- Python's `random.random() < epsilon` is an explicit boolean parameter
  and `random.choice` takes an explicit index, so every run of the
  randomized code is a run of the embedding at some choice of parameters;
- exceptions (`random.choice` on an empty list) are `Option.none`.
-/

namespace TTT

/-- A game session: the fields of the Python class `TicTacToeGame`. -/
structure Game where
  board : List Char
  current_player : Char
  winner : Option Char
  game_over : Bool
deriving DecidableEq, Repr

/-- Cell access `self.board[i]` (every source access is in range 0..8). -/
def cell (b : List Char) (i : Nat) : Char := b.getD i ' '

/-- `reset`: 9 empty cells, X starts, no winner, game not over. -/
def reset : Game :=
  { board := List.replicate 9 ' '
    current_player := 'X'
    winner := none
    game_over := false }

/-- `get_state`: the board joined into a 9-character string. -/
def get_state (g : Game) : String := String.mk g.board

/-- `available_moves`: indices of the empty cells, by `enumerate`. -/
def available_moves (b : List Char) : List Nat :=
  (b.enum.filter (fun p => p.2 == ' ')).map Prod.fst

/-- `check_win`: rows (i = 0, 3, 6), columns (i = 0, 1, 2), diagonals;
Python's chained `b[i] == b[j] == b[k] == player`. -/
def check_win (b : List Char) (player : Char) : Bool :=
  (([0, 3, 6] : List Nat).any (fun i =>
      cell b i == cell b (i+1) && cell b (i+1) == cell b (i+2) &&
        cell b (i+2) == player)) ||
  (([0, 1, 2] : List Nat).any (fun i =>
      cell b i == cell b (i+3) && cell b (i+3) == cell b (i+6) &&
        cell b (i+6) == player)) ||
  (cell b 0 == cell b 4 && cell b 4 == cell b 8 && cell b 8 == player) ||
  (cell b 2 == cell b 4 && cell b 4 == cell b 6 && cell b 6 == player)

/-- `check_tie`: no empty cell and no winner. -/
def check_tie (b : List Char) (winner : Option Char) : Bool :=
  !(b.contains ' ') && winner.isNone

/-- `make_move(position, player=None)`: returns the Python `True`/`False`
together with the session after the call (the session is unchanged on
`False`). -/
def make_move (g : Game) (position : Nat) (player : Option Char) :
    Bool × Game :=
  let player := player.getD g.current_player
  if position ∈ available_moves g.board then
    let g1 : Game := { g with board := g.board.set position player }
    if check_win g1.board player then
      (true, { g1 with winner := some player, game_over := true })
    else if check_tie g1.board g1.winner then
      (true, { g1 with game_over := true })
    else
      (true, { g1 with
                current_player := if g1.current_player == 'X' then 'O' else 'X' })
  else
    (false, g)

/-- The agent: the fields of `SimpleAIAgent`; the two `defaultdict`s are
association lists in insertion order. -/
structure Agent where
  epsilon : ℚ
  state_values : List (String × ℚ)
  state_visits : List (String × Nat)
deriving DecidableEq, Repr

/-- `defaultdict` read `d[k]`: the stored value, or the default — which is
then also inserted, as Python's `defaultdict.__getitem__` does. -/
def dget {α : Type} (default : α) (d : List (String × α)) (k : String) :
    α × List (String × α) :=
  match d.find? (fun p => p.1 == k) with
  | some p => (p.2, d)
  | none => (default, d ++ [(k, default)])

/-- dict write `d[k] = v`: update the entry for `k` in place, or append. -/
def dset {α : Type} (d : List (String × α)) (k : String) (v : α) :
    List (String × α) :=
  if d.any (fun p => p.1 == k) then
    d.map (fun p => if p.1 == k then (k, v) else p)
  else d ++ [(k, v)]

/-- Read-only view of a dict with a default (`d.get(k, default)`). -/
def dlookup {α : Type} (default : α) (d : List (String × α)) (k : String) :
    α :=
  (((d.find? (fun p => p.1 == k))).map Prod.snd).getD default

/-- The stored value of a state key (default 0). -/
def valueOf (a : Agent) (s : String) : ℚ := dlookup 0 a.state_values s

/-- The stored visit count of a state key (default 0). -/
def visitsOf (a : Agent) (s : String) : Nat := dlookup 0 a.state_visits s

/-- `random.choice` at explicit index `k`; `none` models the `IndexError`
it raises on an empty list. -/
def randomChoice {α : Type} (k : Nat) (l : List α) : Option α :=
  l.get? (k % l.length)

/-- One iteration of `learn`'s loop at key `state`:
`self.state_visits[state] += 1` then
`self.state_values[state] += (reward - self.state_values[state]) / self.state_visits[state]`,
with `defaultdict` insertion of absent keys on each read. -/
def learnStep (a : Agent) (reward : ℚ) (state : String) : Agent :=
  let r0 := dget 0 a.state_visits state
  let visits := dset r0.2 state (r0.1 + 1)
  let r1 := dget 0 a.state_values state
  let values := dset r1.2 state (r1.1 + (reward - r1.1) / ((r0.1 : ℚ) + 1))
  { a with state_visits := visits, state_values := values }

/-- `learn(state_history, reward)`: the loop over the trajectory in order. -/
def learn (a : Agent) (state_history : List String) (reward : ℚ) : Agent :=
  state_history.foldl (fun a s => learnStep a reward s) a

/-- One iteration of the exploitation loop of `choose_action`: simulate
`move` on a copy of the board, read `self.state_values[next_state]` (a
`defaultdict` read: it inserts the key if absent), then update the
running best value (`-inf` is `⊥ : WithBot ℚ`) and the tied best moves
with Python's strict `>` / `==` pair. The accumulator is
(best_value, best_moves, agent). -/
def scanStep (g : Game) (player : Char)
    (acc : WithBot ℚ × List Nat × Agent) (move : Nat) :
    WithBot ℚ × List Nat × Agent :=
  let board_copy := g.board.set move player
  let next_state := String.mk board_copy
  let r := dget 0 acc.2.2.state_values next_state
  let ag : Agent := { acc.2.2 with state_values := r.2 }
  if acc.1 < (r.1 : WithBot ℚ) then ((r.1 : WithBot ℚ), [move], ag)
  else if (r.1 : WithBot ℚ) = acc.1 then (acc.1, acc.2.1 ++ [move], ag)
  else (acc.1, acc.2.1, ag)

/-- `choose_action(game, player)`. `explore` is the outcome of
`random.random() < self.epsilon`; `k` indexes the `random.choice` calls.
The result is the chosen move (`none` = the `IndexError` of
`random.choice([])`) together with the agent after the call — the
exploitation scan's `self.state_values[next_state]` reads insert absent
keys, so the agent can change. -/
def choose_action (a : Agent) (g : Game) (player : Char) (explore : Bool)
    (k : Nat) : Option Nat × Agent :=
  let available := available_moves g.board
  if explore then
    (randomChoice k available, a)
  else
    let scan := available.foldl (scanStep g player)
      ((⊥ : WithBot ℚ), ([] : List Nat), a)
    if scan.2.1.isEmpty then (randomChoice k available, scan.2.2)
    else (randomChoice k scan.2.1, scan.2.2)

/-- The randomness a training run draws: at step `t`, `explore t` is the
outcome of `random.random() < epsilon` and `pick t` indexes that step's
`random.choice`. -/
structure RNG where
  explore : Nat → Bool
  pick : Nat → Nat

/-- The `while not game.game_over` loop of `train_agent`: record the
pre-move state key into the mover's trajectory, choose a move, apply it
(default player). `t` counts randomness steps; the fuel bounds the loop
(9 suffices from `reset`, each successful move filling a cell). The
`none` branch (an exception inside `choose_action`) is unreachable in
training, where the game is not over and a move is always available. -/
def playEpisode (rng : RNG) :
    Nat → Agent → Game → List String → List String → Nat →
      Game × List String × List String × Agent × Nat
  | 0, a, g, xs, os, t => (g, xs, os, a, t)
  | Nat.succ fuel, a, g, xs, os, t =>
    if g.game_over then (g, xs, os, a, t)
    else
      let current_state := get_state g
      let xs1 := if g.current_player == 'X' then xs ++ [current_state] else xs
      let os1 := if g.current_player == 'X' then os else os ++ [current_state]
      let r := choose_action a g g.current_player (rng.explore t) (rng.pick t)
      match r.1 with
      | none => (g, xs1, os1, r.2, t + 1)
      | some move =>
          playEpisode rng fuel r.2 (make_move g move none).2 xs1 os1 (t + 1)

/-- The body of `for episode in range(episodes)` in `train_agent`:
play one self-play episode from `reset`, then `learn` both trajectories
with rewards 1/0 (X wins), 0/1 (O wins) or 1/2 each (tie). Returns the
session, the agent and the next randomness step. -/
def episodeBody (rng : RNG) (a : Agent) (t : Nat) : Agent × Nat :=
  let ep := playEpisode rng 9 a reset [] [] t
  let gEnd := ep.1
  let xs := ep.2.1
  let os := ep.2.2.1
  let a1 := ep.2.2.2.1
  let t1 := ep.2.2.2.2
  let a2 :=
    if gEnd.winner == some 'X' then learn (learn a1 xs 1) os 0
    else if gEnd.winner == some 'O' then learn (learn a1 xs 0) os 1
    else learn (learn a1 xs (1/2)) os (1/2)
  (a2, t1)

/-- The episode loop of `train_agent` with its early
`if (episode + 1) % 1000 == 0: return None`: iterate over the remaining
episode count, returning the agent together with the number of episodes
that actually ran to completion (learning included). -/
def trainLoop (rng : RNG) :
    Nat → Nat → Agent → Nat → Agent × Nat
  | 0, episode, a, _ => (a, episode)
  | Nat.succ remaining, episode, a, t =>
    let body := episodeBody rng a t
    if (episode + 1) % 1000 == 0 then (body.1, episode + 1)
    else trainLoop rng remaining (episode + 1) body.1 body.2

/-- `train_agent(agent, episodes)`: the final agent and the number of
episodes that ran before the function returned. -/
def train_agent (a : Agent) (episodes : Nat) (rng : RNG) : Agent × Nat :=
  trainLoop rng episodes 0 a 0

/-- The 8 winning lines: 3 rows, 3 columns, 2 diagonals. -/
def winLines : List (List Nat) :=
  [[0, 1, 2], [3, 4, 5], [6, 7, 8],
   [0, 3, 6], [1, 4, 7], [2, 5, 8],
   [0, 4, 8], [2, 4, 6]]

/-- The opposing mark. -/
def other (m : Char) : Char := if m = 'X' then 'O' else 'X'

/-- The session invariant maintained by `reset` and default-player
`make_move`: a 9-cell board, a valid mark to move, `game_over` faithful
to the board, and a winner that is the unique winning mark and the mark
still to move. -/
def Inv (g : Game) : Prop :=
  g.board.length = 9 ∧
  (g.current_player = 'X' ∨ g.current_player = 'O') ∧
  (g.game_over = false → ' ' ∈ g.board) ∧
  (g.game_over = true → g.winner ≠ none ∨ ' ' ∉ g.board) ∧
  (g.winner = none →
    check_win g.board 'X' = false ∧ check_win g.board 'O' = false) ∧
  (∀ m, g.winner = some m →
    (m = 'X' ∨ m = 'O') ∧ check_win g.board m = true ∧
    check_win g.board (other m) = false ∧
    g.current_player = m ∧ g.game_over = true)

/-- Sessions reachable from `reset` through successful default-player
moves (the protocol `train_agent` and `play_game` follow). -/
inductive Reachable : Game → Prop
  | init : Reachable reset
  | step (g : Game) (pos : Nat) (hg : Reachable g)
      (hok : (make_move g pos none).1 = true) :
      Reachable (make_move g pos none).2


/-- Running a list of (position, player) calls through `make_move`
starting from `reset`: the conjunction of the returned flags and the
final session. -/
def playSeq (moves : List (Nat × Option Char)) : Bool × Game :=
  moves.foldl (fun acc pc =>
    let r := make_move acc.2 pc.1 pc.2
    (acc.1 && r.1, r.2)) (true, reset)

/-- The finished session after X takes the top row (the end-to-end
scenario of the spec): winner X, game over, cells 5..8 untouched. -/
def gOver : Game :=
  (playSeq [(0, none), (3, none), (1, none), (4, none), (2, none)]).2

/-- Recover the board from a state key. -/
def boardOfKey (s : String) : List Char := s.data

/-- A fresh agent, as `SimpleAIAgent(epsilon=0.1)` builds it. -/
def agentA : Agent :=
  { epsilon := 1/10, state_values := [], state_visits := [] }

/-- A session one move from the end, used to exercise the exploitation
scan on concrete data. -/
def sessionB : Game :=
  { board := ['X', 'O', 'X', 'O', 'X', 'O', 'O', 'X', ' ']
    current_player := 'X'
    winner := none
    game_over := false }


/-! ### Basic lemmas on the board operations -/

theorem mem_available_moves (b : List Char) (i : Nat) :
    i ∈ available_moves b ↔ i < b.length ∧ cell b i = ' ' := by
  simp only [available_moves, List.mem_map, List.mem_filter, beq_iff_eq]
  constructor
  · rintro ⟨⟨j, c⟩, ⟨hm, hc⟩, rfl⟩
    have hj := List.mem_enum_iff_getElem?.mp hm
    have hlt : j < b.length := by
      by_contra hcon
      rw [List.getElem?_eq_none (by omega)] at hj
      exact Option.noConfusion hj
    refine ⟨hlt, ?_⟩
    simp only [cell, List.getD_eq_getElem?_getD, hj, Option.getD_some]
    exact hc
  · rintro ⟨hlt, hc⟩
    refine ⟨(i, ' '), ⟨?_, rfl⟩, rfl⟩
    apply List.mem_enum_iff_getElem?.mpr
    simp only [cell, List.getD_eq_getElem?_getD, List.getElem?_eq_getElem hlt,
      Option.getD_some] at hc
    simp [List.getElem?_eq_getElem hlt, hc]

theorem available_moves_sorted (b : List Char) :
    (available_moves b).Pairwise (fun i j => i < j) := by
  have hsub : List.Sublist (available_moves b) (b.enum.map Prod.fst) :=
    (List.filter_sublist _).map _
  rw [List.enum_map_fst] at hsub
  exact (List.pairwise_lt_range _).sublist hsub

theorem cell_set (b : List Char) (pos i : Nat) (p : Char) :
    cell (b.set pos p) i =
      if pos = i ∧ pos < b.length then p else cell b i := by
  simp only [cell, List.getD_eq_getElem?_getD, List.getElem?_set]
  by_cases hpi : pos = i
  · subst hpi
    by_cases hl : pos < b.length
    · simp [hl]
    · simp [hl, List.getElem?_eq_none (Nat.le_of_not_lt hl)]
  · simp [hpi]

theorem check_win_iff (b : List Char) (p : Char) :
    check_win b p = true ↔ ∃ l ∈ winLines, ∀ i ∈ l, cell b i = p := by
  simp only [check_win, winLines, List.any_cons, List.any_nil,
    Bool.or_eq_true, Bool.and_eq_true, beq_iff_eq, Bool.or_false,
    List.mem_cons, List.not_mem_nil, or_false, List.mem_singleton,
    exists_eq_or_imp, exists_eq_left]
  constructor
  · rintro ((((h | h | h) | (h | h | h)) | h) | h) <;>
      obtain ⟨⟨h1, h2⟩, h3⟩ := h <;> subst h3 <;> simp_all
  · rintro (h | h | h | h | h | h | h | h) <;>
    · have h1 := h _ (Or.inl rfl)
      have h2 := h _ (Or.inr (Or.inl rfl))
      have h3 := h _ (Or.inr (Or.inr rfl))
      simp_all

/-- A winning line of `q` on the board after `p` moved was already a
winning line of `q` before the move (for distinct marks). -/
theorem check_win_set_ne (b : List Char) (pos : Nat) (p q : Char)
    (hq : q ≠ p) (h : check_win (b.set pos p) q = true) :
    check_win b q = true := by
  rw [check_win_iff] at h ⊢
  obtain ⟨l, hl, hall⟩ := h
  refine ⟨l, hl, fun i hi => ?_⟩
  have hc := hall i hi
  rw [cell_set] at hc
  split_ifs at hc
  · exact absurd hc.symm hq
  · exact hc

/-- A winning line of a non-empty mark `q` survives filling an empty
cell. -/
theorem check_win_set_preserve (b : List Char) (pos : Nat) (p q : Char)
    (hq : q ≠ ' ') (hpos : cell b pos = ' ')
    (h : check_win b q = true) :
    check_win (b.set pos p) q = true := by
  rw [check_win_iff] at h ⊢
  obtain ⟨l, hl, hall⟩ := h
  refine ⟨l, hl, fun i hi => ?_⟩
  rw [cell_set]
  split_ifs with hcond
  · obtain ⟨rfl, _⟩ := hcond
    have hc := hall pos hi
    rw [hpos] at hc
    exact absurd hc.symm hq
  · exact hall i hi

theorem cell_mem (b : List Char) (i : Nat) (h : i < b.length) :
    cell b i ∈ b := by
  simp only [cell, List.getD_eq_getElem?_getD, List.getElem?_eq_getElem h,
    Option.getD_some]
  exact List.getElem_mem h

theorem Inv_reset : Inv reset := by
  refine ⟨by simp [reset], Or.inl rfl, ?_, by simp [reset], ?_, ?_⟩
  · intro _
    simp [reset]
  · intro _
    exact ⟨by decide, by decide⟩
  · intro m hm
    simp [reset] at hm

theorem make_move_inv (g : Game) (pos : Nat) (hInv : Inv g) :
    Inv (make_move g pos none).2 := by
  obtain ⟨hlen, hcp, hempty, hfull, hnone, hsome⟩ := hInv
  by_cases hmem : pos ∈ available_moves g.board
  case neg =>
    simp only [make_move, Option.getD_none, hmem, if_false]
    exact ⟨hlen, hcp, hempty, hfull, hnone, hsome⟩
  case pos =>
    have hposlt : pos < g.board.length := ((mem_available_moves _ _).mp hmem).1
    have hposcell : cell g.board pos = ' ' := ((mem_available_moves _ _).mp hmem).2
    have hpX : g.current_player ≠ ' ' := by rcases hcp with h | h <;> simp [h]
    simp only [make_move, Option.getD_none, hmem, if_true]
    rcases hw : g.winner with _ | m
    · -- no winner yet: both marks are currently winless
      obtain ⟨hnX, hnO⟩ := hnone hw
      have hother : check_win (g.board.set pos g.current_player)
          (other g.current_player) = false := by
        by_contra hcon
        rw [Bool.not_eq_false] at hcon
        have h2 := check_win_set_ne _ _ _ _
          (by rcases hcp with h | h <;> simp [h, other]) hcon
        rcases hcp with h | h
        · rw [h, (by decide : other 'X' = 'O')] at h2
          rw [h2] at hnO
          exact Bool.noConfusion hnO
        · rw [h, (by decide : other 'O' = 'X')] at h2
          rw [h2] at hnX
          exact Bool.noConfusion hnX
      by_cases hwin : check_win (g.board.set pos g.current_player)
          g.current_player = true
      · -- the mover completes a line and becomes the winner
        simp only [hwin, if_true, Inv]
        refine ⟨by simp [hlen], hcp, by simp, by simp, by simp, ?_⟩
        intro m hm
        simp only [Option.some.injEq] at hm
        subst hm
        exact ⟨hcp, hwin, hother, by trivial, by trivial⟩
      · rw [Bool.not_eq_true] at hwin
        simp only [hwin, Bool.false_eq_true, if_false]
        by_cases htie : check_tie (g.board.set pos g.current_player) none = true
        · -- the board filled with no winner: a tie
          simp only [htie, if_true, Inv]
          have hnomem : ¬ ' ' ∈ g.board.set pos g.current_player := by
            simp only [check_tie, Option.isNone_none, Bool.and_true,
              Bool.not_eq_eq_eq_not, Bool.not_true] at htie
            intro hmm
            rw [List.contains_eq_any_beq] at htie
            have : (g.board.set pos g.current_player).any (' ' == ·) = true :=
              List.any_of_mem hmm (by simp)
            rw [this] at htie
            exact Bool.noConfusion htie
          refine ⟨by simp [hlen], hcp, by simp, by simp [hnomem], ?_, ?_⟩
          · intro _
            constructor
            · rcases hcp with h | h
              · rw [h] at hwin ⊢
                exact hwin
              · rw [h]
                by_contra hcon
                rw [Bool.not_eq_false] at hcon
                have h2 := check_win_set_ne _ _ _ _ (by simp) hcon
                rw [h2] at hnX
                exact Bool.noConfusion hnX
            · rcases hcp with h | h
              · rw [h]
                by_contra hcon
                rw [Bool.not_eq_false] at hcon
                have h2 := check_win_set_ne _ _ _ _ (by simp) hcon
                rw [h2] at hnO
                exact Bool.noConfusion hnO
              · rw [h] at hwin ⊢
                exact hwin
          · intro m hm
            exact Option.noConfusion hm
        · -- ordinary move: switch the player
          rw [Bool.not_eq_true] at htie
          simp only [htie, Bool.false_eq_true, if_false, Inv]
          have hgo : g.game_over = false := by
            by_contra hcon
            rw [Bool.not_eq_false] at hcon
            rcases hfull hcon with h | h
            · exact h hw
            · exact h (hposcell ▸ cell_mem g.board pos hposlt)
          have hmm : ' ' ∈ g.board.set pos g.current_player := by
            simp only [check_tie, Option.isNone_none, Bool.and_true,
              Bool.not_eq_eq_eq_not, Bool.not_false, List.contains_eq_any_beq,
              List.any_eq_true, beq_iff_eq] at htie
            obtain ⟨x, hx, hx2⟩ := htie
            rw [← hx2] at hx
            exact hx
          refine ⟨by simp [hlen], by rcases hcp with h | h <;> simp [h], ?_,
            by simp [hgo], ?_, ?_⟩
          · intro _
            exact hmm
          · intro _
            constructor
            · rcases hcp with h | h
              · rw [h] at hwin ⊢
                exact hwin
              · rw [h]
                by_contra hcon
                rw [Bool.not_eq_false] at hcon
                have h2 := check_win_set_ne _ _ _ _ (by simp) hcon
                rw [h2] at hnX
                exact Bool.noConfusion hnX
            · rcases hcp with h | h
              · rw [h]
                by_contra hcon
                rw [Bool.not_eq_false] at hcon
                have h2 := check_win_set_ne _ _ _ _ (by simp) hcon
                rw [h2] at hnO
                exact Bool.noConfusion hnO
              · rw [h] at hwin ⊢
                exact hwin
          · intro m hm
            exact Option.noConfusion hm
    · -- a winner is already set: the same mark moves again and stays the
      -- unique winner
      obtain ⟨hmXO, hwinm, hothm, hcur, hgo⟩ := hsome m hw
      have hmX : m ≠ ' ' := by rcases hmXO with h | h <;> simp [h]
      have hwin1 : check_win (g.board.set pos g.current_player)
          g.current_player = true := by
        rw [hcur]
        exact check_win_set_preserve _ _ _ _ hmX hposcell hwinm
      simp only [hwin1, if_true, Inv]
      refine ⟨by simp [hlen], hcp, by simp, by simp, by simp, ?_⟩
      intro m' hm'
      simp only [Option.some.injEq] at hm'
      subst hm'
      refine ⟨hcp, hwin1, ?_, by trivial, by trivial⟩
      by_contra hcon
      rw [Bool.not_eq_false] at hcon
      have h2 := check_win_set_ne _ _ _ _
        (by rcases hcp with h | h <;> simp [h, other]) hcon
      rw [hcur] at h2
      rw [h2] at hothm
      exact Bool.noConfusion hothm

theorem Reachable_inv (g : Game) (h : Reachable g) : Inv g := by
  induction h with
  | init => exact Inv_reset
  | step g pos hg hok ih => exact make_move_inv g pos ih

/-! ### Lemmas on the dictionary operations -/

theorem dget_fst {α : Type} (default : α) (d : List (String × α))
    (k : String) : (dget default d k).1 = dlookup default d k := by
  unfold dget dlookup
  cases h : d.find? (fun p => p.1 == k) <;> simp [h]

theorem dlookup_dget_snd {α : Type} (default : α) (d : List (String × α))
    (k0 k : String) :
    dlookup default (dget default d k0).2 k = dlookup default d k := by
  unfold dget
  cases h : d.find? (fun p => p.1 == k0)
  case some p => simp
  case none =>
    simp only [dlookup, List.find?_append, h]
    cases hk : d.find? (fun p => p.1 == k)
    case some q => simp [Option.or]
    case none =>
      cases hkk : k0 == k <;> simp [List.find?, hkk, Option.or]

theorem find?_map_update {α : Type} (d : List (String × α)) (k : String)
    (v : α) :
    (d.map (fun p => if p.1 == k then (k, v) else p)).find?
        (fun p => p.1 == k) =
      if d.any (fun p => p.1 == k) then some (k, v) else none := by
  induction d with
  | nil => simp
  | cons hd tl ih =>
    by_cases hh : (hd.1 == k) = true
    · rw [List.map_cons, if_pos hh, List.find?_cons, List.any_cons]
      simp [hh]
    · have hh' : (hd.1 == k) = false := by simpa using hh
      rw [List.map_cons, if_neg hh, List.find?_cons, List.any_cons]
      simp only [hh', Bool.false_or, ih]

theorem find?_map_update_ne {α : Type} (d : List (String × α))
    (k k' : String) (v : α) (hk : k' ≠ k) :
    (d.map (fun p => if p.1 == k then (k, v) else p)).find?
        (fun p => p.1 == k') =
      (d.find? (fun p => p.1 == k')).map
        (fun p => if p.1 == k then (k, v) else p) := by
  induction d with
  | nil => simp
  | cons hd tl ih =>
    by_cases hh : (hd.1 == k) = true
    · have hne : ((k : String) == k') = false := by
        simp only [beq_eq_false_iff_ne, ne_eq]
        intro hcon
        exact hk hcon.symm
      have hne2 : (hd.1 == k') = false := by
        simp only [beq_iff_eq] at hh
        simp only [beq_eq_false_iff_ne, ne_eq, hh]
        intro hcon
        exact hk hcon.symm
      rw [List.map_cons, if_pos hh, List.find?_cons, List.find?_cons]
      simp only [hne, hne2, ih]
    · rw [List.map_cons, if_neg hh, List.find?_cons, List.find?_cons]
      by_cases hh' : (hd.1 == k') = true
      · have hne3 : ¬ hd.1 = k := by simpa using hh
        simp [hh', hne3]
      · have hh1 : (hd.1 == k') = false := by simpa using hh'
        simp only [hh1, ih]

theorem dlookup_dset_self {α : Type} (default : α) (d : List (String × α))
    (k : String) (v : α) :
    dlookup default (dset d k v) k = v := by
  unfold dset dlookup
  by_cases hany : d.any (fun p => p.1 == k)
  · rw [if_pos hany, find?_map_update, if_pos hany]
    simp
  · rw [if_neg hany, List.find?_append]
    have hnone : d.find? (fun p => p.1 == k) = none := by
      rw [List.find?_eq_none]
      intro x hx
      simp only [List.any_eq_true, not_exists, not_and] at hany
      exact fun hc => (hany x hx) hc
    rw [hnone]
    simp [List.find?, Option.or]

theorem dlookup_dset_ne {α : Type} (default : α) (d : List (String × α))
    (k k' : String) (v : α) (hk : k' ≠ k) :
    dlookup default (dset d k v) k' = dlookup default d k' := by
  unfold dset dlookup
  by_cases hany : d.any (fun p => p.1 == k)
  · rw [if_pos hany, find?_map_update_ne _ _ _ _ hk]
    cases h : d.find? (fun p => p.1 == k') with
    | none => simp
    | some p =>
      have hp := List.find?_some h
      simp only [beq_iff_eq] at hp
      have hpk : ¬ p.1 = k := by
        rw [hp]
        exact hk
      simp [hpk]
  · rw [if_neg hany, List.find?_append]
    cases h : d.find? (fun p => p.1 == k') with
    | some p => simp [Option.or]
    | none =>
      have hkk : ((k : String) == k') = false := by
        simp only [beq_eq_false_iff_ne, ne_eq]
        intro hcon
        exact hk hcon.symm
      simp [List.find?, hkk, Option.or]

/-! ### Lemmas on `learn` -/

theorem visitsOf_learnStep_self (a : Agent) (r : ℚ) (s : String) :
    visitsOf (learnStep a r s) s = visitsOf a s + 1 := by
  unfold learnStep visitsOf
  simp only [dlookup_dset_self, dget_fst]

theorem valueOf_learnStep_self (a : Agent) (r : ℚ) (s : String) :
    valueOf (learnStep a r s) s =
      valueOf a s + (r - valueOf a s) / ((visitsOf a s : ℚ) + 1) := by
  unfold learnStep valueOf visitsOf
  simp only [dlookup_dset_self, dget_fst]

theorem learnStep_abs_le (a : Agent) (r : ℚ) (s : String) :
    |valueOf (learnStep a r s) s - r| ≤ |valueOf a s - r| := by
  rw [valueOf_learnStep_self]
  set v := valueOf a s with hv
  set n : ℚ := (visitsOf a s : ℚ) with hn
  have hn0 : 0 ≤ n := by rw [hn]; exact Nat.cast_nonneg _
  have hpos : (0 : ℚ) < n + 1 := by linarith
  have key : v + (r - v) / (n + 1) - r = (v - r) * (n / (n + 1)) := by
    field_simp
    ring
  rw [key, abs_mul, abs_of_nonneg (by positivity : (0:ℚ) ≤ n / (n + 1))]
  have h2 : n / (n + 1) ≤ 1 := by
    rw [div_le_one hpos]
    linarith
  calc |v - r| * (n / (n + 1)) ≤ |v - r| * 1 :=
        mul_le_mul_of_nonneg_left h2 (abs_nonneg _)
    _ = |v - r| := mul_one _

/-! ### Lemmas on `choose_action` -/

theorem scanStep_state_visits (g : Game) (p : Char)
    (acc : WithBot ℚ × List Nat × Agent) (move : Nat) :
    (scanStep g p acc move).2.2.state_visits = acc.2.2.state_visits := by
  simp only [scanStep]
  split_ifs <;> rfl

theorem scanStep_epsilon (g : Game) (p : Char)
    (acc : WithBot ℚ × List Nat × Agent) (move : Nat) :
    (scanStep g p acc move).2.2.epsilon = acc.2.2.epsilon := by
  simp only [scanStep]
  split_ifs <;> rfl

theorem scanStep_valueOf (g : Game) (p : Char)
    (acc : WithBot ℚ × List Nat × Agent) (move : Nat) (s : String) :
    valueOf (scanStep g p acc move).2.2 s = valueOf acc.2.2 s := by
  simp only [scanStep, valueOf]
  split_ifs <;> simp [dlookup_dget_snd]

/-- The exploitation scan changes the agent only by `defaultdict`
insertions into `state_values`: the visit counts, epsilon, and every
value lookup are unchanged. -/
theorem scan_foldl_agent (g : Game) (p : Char) (l : List Nat)
    (acc : WithBot ℚ × List Nat × Agent) :
    ((l.foldl (scanStep g p) acc).2.2.state_visits = acc.2.2.state_visits) ∧
    ((l.foldl (scanStep g p) acc).2.2.epsilon = acc.2.2.epsilon) ∧
    (∀ s, valueOf (l.foldl (scanStep g p) acc).2.2 s = valueOf acc.2.2 s) := by
  induction l generalizing acc with
  | nil => exact ⟨rfl, rfl, fun s => rfl⟩
  | cons m tl ih =>
    simp only [List.foldl_cons]
    obtain ⟨h1, h2, h3⟩ := ih (scanStep g p acc m)
    exact ⟨h1.trans (scanStep_state_visits g p acc m),
      h2.trans (scanStep_epsilon g p acc m),
      fun s => (h3 s).trans (scanStep_valueOf g p acc m s)⟩

theorem randomChoice_isSome {α : Type} (k : Nat) (l : List α)
    (h : l ≠ []) : (randomChoice k l).isSome = true := by
  unfold randomChoice
  have hlen : 0 < l.length := List.length_pos.mpr h
  have hlt : k % l.length < l.length := Nat.mod_lt _ hlen
  simp [List.get?_eq_getElem?, List.getElem?_eq_getElem hlt]

theorem choose_action_fst_none (a : Agent) (g : Game) (p : Char)
    (explore : Bool) (k : Nat) (h : available_moves g.board = []) :
    (choose_action a g p explore k).1 = none := by
  unfold choose_action
  rw [h]
  cases explore <;> rfl

theorem choose_action_fst_isSome (a : Agent) (g : Game) (p : Char)
    (explore : Bool) (k : Nat) (h : available_moves g.board ≠ []) :
    ((choose_action a g p explore k).1).isSome = true := by
  unfold choose_action
  cases explore
  · simp only [Bool.false_eq_true, if_false]
    split_ifs with hempty
    · exact randomChoice_isSome k _ h
    · apply randomChoice_isSome
      intro hcon
      exact hempty (by rw [hcon]; rfl)
  · simp only [if_true]
    exact randomChoice_isSome k _ h

/-! ### The episode counter of `train_agent` -/

/-- The early `return None` in `train_agent`: once 1000 episodes have
completed, the episode loop returns no matter how many episodes were
requested. -/
theorem trainLoop_stops (rng : RNG) :
    ∀ (remaining episode : Nat) (a : Agent) (t : Nat),
      episode ≤ 999 → 1000 ≤ episode + remaining →
      (trainLoop rng remaining episode a t).2 = 1000 := by
  intro remaining
  induction remaining with
  | zero =>
    intro episode a t h1 h2
    omega
  | succ r ih =>
    intro episode a t h1 h2
    simp only [trainLoop]
    split_ifs with hc
    · simp only [beq_iff_eq] at hc
      simp only []
      omega
    · simp only [beq_iff_eq] at hc
      exact ih (episode + 1) _ _ (by omega) (by omega)

/-! ### The claims -/

/-- C1: the claim says `train_agent` runs exactly `episodes` self-play
episodes before returning. The code contradicts it: the progress check
`if (episode + 1) % 1000 == 0: return None` returns from `train_agent`
as soon as 1000 episodes have completed, so a request for 1001 episodes
runs only 1000 (the second component counts completed episodes). -/
theorem train_agent_early_return :
    (train_agent agentA 1001
        { explore := fun _ => true, pick := fun _ => 0 }).2 = 1000 := by
  unfold train_agent
  exact trainLoop_stops _ 1001 0 _ 0 (by omega) (by omega)

/-- C2 counterexample: the exploitation branch of `choose_action` is not
a read-only probe of the value table. Looking up a hypothetical next
state on the `defaultdict` inserts the absent key (with value 0.0), so
the table after the call differs from the table before it. -/
theorem choose_action_exploit_creates_entry :
    (choose_action agentA sessionB 'X' false 0).2.state_values ≠
      agentA.state_values := by
  decide

/-- C2 (amended): the exploitation branch of `choose_action` leaves the
visit counts, epsilon and every value lookup (absent keys reading 0.0)
unchanged, and the live session is untouched; but each absent
hypothetical next-state key is inserted into `state_values` with the
default value 0.0, so the table itself may grow. -/
theorem choose_action_exploit_frame (a : Agent) (g : Game) (p : Char)
    (k : Nat) :
    (choose_action a g p false k).2.state_visits = a.state_visits ∧
    (choose_action a g p false k).2.epsilon = a.epsilon ∧
    ∀ s, valueOf (choose_action a g p false k).2 s = valueOf a s := by
  unfold choose_action
  simp only [Bool.false_eq_true, if_false]
  obtain ⟨h1, h2, h3⟩ :=
    scan_foldl_agent g p (available_moves g.board)
      ((⊥ : WithBot ℚ), ([] : List Nat), a)
  split_ifs <;> exact ⟨h1, h2, h3⟩

/-- C3: `make_move` on a position outside `available_moves` (occupied or
out of range) returns the failure flag and the session exactly as it
was — no field changes, and no exception. -/
theorem make_move_invalid_unchanged (g : Game) (pos : Nat)
    (player : Option Char) (h : pos ∉ available_moves g.board) :
    make_move g pos player = (false, g) := by
  unfold make_move
  rw [if_neg h]

/-- C3 witness: position 9 is out of range on a fresh board, and an
occupied cell (0 after X took it) is rejected likewise, both leaving the
session untouched. -/
theorem make_move_invalid_unchanged_witness :
    (9 ∉ available_moves reset.board ∧
      make_move reset 9 none = (false, reset)) ∧
    (0 ∉ available_moves gOver.board ∧
      make_move gOver 0 (some 'O') = (false, gOver)) :=
  ⟨⟨by decide, make_move_invalid_unchanged reset 9 none (by decide)⟩,
   ⟨by decide, make_move_invalid_unchanged gOver 0 (some 'O') (by decide)⟩⟩

/-- C4: `learn` walks the trajectory in order; each step increments the
state's visit count (from a default of 0) and replaces its value by
`value + (reward - value) / visit_count` with the incremented count; in
particular an absent key (value 0, count 0) gets exactly the reward
after one update, and every update moves the value weakly toward the
reward. -/
theorem learn_incremental_mean (a : Agent) (s : String) (r : ℚ)
    (hist : List String) :
    learn a hist r = hist.foldl (fun b t => learnStep b r t) a ∧
    visitsOf (learnStep a r s) s = visitsOf a s + 1 ∧
    valueOf (learnStep a r s) s =
      valueOf a s + (r - valueOf a s) / ((visitsOf a s : ℚ) + 1) ∧
    (valueOf a s = 0 → visitsOf a s = 0 → valueOf (learnStep a r s) s = r) ∧
    |valueOf (learnStep a r s) s - r| ≤ |valueOf a s - r| := by
  refine ⟨rfl, visitsOf_learnStep_self a r s, valueOf_learnStep_self a r s,
    ?_, learnStep_abs_le a r s⟩
  intro h0 hn0
  rw [valueOf_learnStep_self, h0, hn0]
  norm_num

/-- C5 counterexample: with caller-supplied marks (which the engine
accepts: `make_move` never checks `game_over` or whose turn it is), six
successful `make_move` calls from `reset` reach a board on which
`check_win` is true for both marks at once, contradicting the claim for
boards reachable through legal (that is, accepted) `apply_move` calls. -/
theorem double_win_reachable_with_marks :
    (playSeq [(0, some 'X'), (1, some 'X'), (2, some 'X'),
              (3, some 'O'), (4, some 'O'), (5, some 'O')]).1 = true ∧
    check_win (playSeq [(0, some 'X'), (1, some 'X'), (2, some 'X'),
              (3, some 'O'), (4, some 'O'), (5, some 'O')]).2.board 'X'
        = true ∧
    check_win (playSeq [(0, some 'X'), (1, some 'X'), (2, some 'X'),
              (3, some 'O'), (4, some 'O'), (5, some 'O')]).2.board 'O'
        = true := by
  decide

/-- C5 (amended): for every session reachable from `reset` through
successful default-player `make_move` calls (the protocol the training
driver and game loop follow), `check_win` is true for at most one of the
two marks, and a set winner owns three equal cells along one of the 8
win lines. -/
theorem reachable_unique_winner (g : Game) (h : Reachable g) :
    (¬ (check_win g.board 'X' = true ∧ check_win g.board 'O' = true)) ∧
    (∀ m, g.winner = some m →
      ∃ l ∈ winLines, ∀ i ∈ l, cell g.board i = m) := by
  obtain ⟨_, _, _, _, hnone, hsome⟩ := Reachable_inv g h
  constructor
  · rintro ⟨hX, hO⟩
    rcases hg : g.winner with _ | m
    · rcases hnone hg with ⟨h1, _⟩
      rw [hX] at h1
      exact Bool.noConfusion h1
    · obtain ⟨hmXO, _, hoth, _, _⟩ := hsome m hg
      rcases hmXO with rfl | rfl
      · rw [(by decide : other 'X' = 'O'), hO] at hoth
        exact Bool.noConfusion hoth
      · rw [(by decide : other 'O' = 'X'), hX] at hoth
        exact Bool.noConfusion hoth
  · intro m hm
    obtain ⟨_, hwin, _⟩ := hsome m hm
    exact (check_win_iff _ _).mp hwin

/-- C5 witness: the amended invariant at a concrete reachable session,
the fresh board. -/
theorem reachable_unique_winner_witness :
    (¬ (check_win reset.board 'X' = true ∧
        check_win reset.board 'O' = true)) ∧
    (∀ m, reset.winner = some m →
      ∃ l ∈ winLines, ∀ i ∈ l, cell reset.board i = m) :=
  reachable_unique_winner reset Reachable.init

/-- C6: `choose_action` fails (the modelled `IndexError` of
`random.choice` on an empty list, a fatal propagated exception, not a
recovery) exactly when `available_moves` is empty; with at least one
available move it always returns a move, on both the exploration and
the exploitation branch. -/
theorem choose_action_fails_iff_no_moves (a : Agent) (g : Game) (p : Char)
    (explore : Bool) (k : Nat) :
    (available_moves g.board = [] →
      (choose_action a g p explore k).1 = none) ∧
    (available_moves g.board ≠ [] →
      ((choose_action a g p explore k).1).isSome = true) :=
  ⟨choose_action_fst_none a g p explore k,
   choose_action_fst_isSome a g p explore k⟩

/-- C7: `reset` empties all 9 cells, makes X the current player, clears
the winner and the game-over flag, and returns the empty board's state
key; `available_moves` on the fresh session lists 0..8, and on any board
it lists exactly the indices of empty cells in ascending order. -/
theorem reset_spec_and_available_moves :
    reset.board = List.replicate 9 ' ' ∧
    reset.current_player = 'X' ∧
    reset.winner = none ∧
    reset.game_over = false ∧
    get_state reset = String.mk (List.replicate 9 ' ') ∧
    available_moves reset.board = [0, 1, 2, 3, 4, 5, 6, 7, 8] ∧
    (∀ b : List Char, ∀ i : Nat,
      (i ∈ available_moves b ↔ i < b.length ∧ cell b i = ' ') ∧
      (available_moves b).Pairwise (fun i j => i < j)) := by
  refine ⟨rfl, rfl, rfl, rfl, rfl, by decide, ?_⟩
  intro b i
  exact ⟨mem_available_moves b i, available_moves_sorted b⟩

/-- C8: from a fresh session, the legal sequence X at 0, O at 3, X at 1,
O at 4, X at 2 (all accepted) ends with winner X, game over, and
`available_moves` listing exactly the four untouched cells 5, 6, 7, 8. -/
theorem top_row_win_scenario :
    (playSeq [(0, none), (3, none), (1, none), (4, none), (2, none)]).1
        = true ∧
    gOver.winner = some 'X' ∧
    gOver.game_over = true ∧
    available_moves gOver.board = [5, 6, 7, 8] := by
  decide

/-- C9: `make_move` succeeds exactly when the position is among
`available_moves`, with `game_over` never consulted: on the finished
top-row session (winner X) the empty cell 5 is still accepted, the board
mutates, and an explicit O move rewrites the winner to O. -/
theorem make_move_ignores_game_over :
    (∀ g : Game, ∀ pos : Nat, ∀ player : Option Char,
      ((make_move g pos player).1 = true ↔
        pos ∈ available_moves g.board)) ∧
    gOver.game_over = true ∧
    gOver.winner = some 'X' ∧
    (make_move gOver 5 (some 'O')).1 = true ∧
    (make_move gOver 5 (some 'O')).2.board ≠ gOver.board ∧
    (make_move gOver 5 (some 'O')).2.winner = some 'O' := by
  refine ⟨?_, by decide, by decide, by decide, by decide, by decide⟩
  intro g pos player
  by_cases h : pos ∈ available_moves g.board
  · simp only [make_move, if_pos h]
    constructor
    · intro _
      exact h
    · intro _
      split_ifs <;> rfl
  · simp only [make_move, if_neg h]
    simp [h]

/-- C10: `get_state` is the 9-character concatenation of the cells in
index order; it is injective on boards, and board and key round-trip in
both directions. -/
theorem get_state_injective_roundtrip :
    (∀ g1 g2 : Game, get_state g1 = get_state g2 → g1.board = g2.board) ∧
    (∀ g : Game, boardOfKey (get_state g) = g.board) ∧
    (∀ g : Game, g.board.length = 9 → (get_state g).length = 9) ∧
    (∀ s : String,
      get_state { board := boardOfKey s, current_player := 'X',
                  winner := none, game_over := false } = s) := by
  refine ⟨?_, fun g => rfl, ?_, fun s => rfl⟩
  · intro g1 g2 h
    unfold get_state at h
    exact List.asString_inj.mp h
  · intro g h
    simp only [get_state, String.length, h]

end TTT
